import Mathlib

/-!
Shallow embedding of the virtio split-virtqueue device-side library
(crates/virtio-queue/src/lib.rs) and verification of its specification.

Machine integers are modelled as Nat with explicit reductions modulo
2 ^ 16 (u16) and 2 ^ 64 (u64) exactly where the source performs wrapping
arithmetic.  Guest memory is an oracle giving the outcome of each read and
the success of each write; the memory accesses an operation performs, with
their orderings, are returned as an explicit event trace.
-/

namespace VirtioQueue

def U16 : Nat := 2 ^ 16
def U64 : Nat := 2 ^ 64

/-- Flag marking a buffer as continuing via the next field. -/
def VIRTQ_DESC_F_NEXT : Nat := 0x1
/-- Flag marking a buffer as device write-only. -/
def VIRTQ_DESC_F_WRITE : Nat := 0x2
/-- Flag showing that the buffer contains a list of buffer descriptors. -/
def VIRTQ_DESC_F_INDIRECT : Nat := 0x4

def VIRTQ_USED_F_NO_NOTIFY : Nat := 0x1

/-- Wrapping u64 addition, the model of GuestAddress.unchecked_add in
release builds. -/
def uadd (a b : Nat) : Nat := (a + b) % U64

/-- Checked u64 addition, the model of GuestAddress.checked_add. -/
def checked_add (a b : Nat) : Option Nat :=
  if a + b < U64 then some (a + b) else none

/-- Wrapping u16 subtraction over Nat representatives. -/
def wsub (a b : Nat) : Nat := (a % U16 + (U16 - b % U16)) % U16

/-- The 16-byte virtio descriptor record (fields addr u64, len u32,
flags u16, next u16). -/
structure Descriptor where
  addr : Nat
  len : Nat
  flags : Nat
  next : Nat
deriving DecidableEq, Repr

/-- Descriptor.is_indirect: the INDIRECT flag bit is set. -/
def Descriptor.is_indirect (d : Descriptor) : Bool :=
  d.flags &&& VIRTQ_DESC_F_INDIRECT != 0

/-- Descriptor.has_next: the NEXT flag bit is set. -/
def Descriptor.has_next (d : Descriptor) : Bool :=
  d.flags &&& VIRTQ_DESC_F_NEXT != 0

/-- Descriptor.is_write_only: the WRITE flag bit is set. -/
def Descriptor.is_write_only (d : Descriptor) : Bool :=
  d.flags &&& VIRTQ_DESC_F_WRITE != 0

/-- The 8-byte used-ring element (id u32, len u32). -/
structure VirtqUsedElem where
  id : Nat
  len : Nat
deriving DecidableEq, Repr

/-- VirtqUsedElem.new: the id is the u16 head index zero-extended to u32. -/
def VirtqUsedElem.new (id len : Nat) : VirtqUsedElem :=
  { id := id, len := len }

/-- The error enumeration of the crate. -/
inductive Error where
  | GuestMemory
  | InvalidIndirectDescriptor
  | InvalidIndirectDescriptorTable
  | InvalidChain
  | InvalidDescriptorIndex
deriving DecidableEq, Repr

/-- Memory orderings used by the crate. -/
inductive MemOrder where
  | relaxed
  | acquire
  | release
  | seqCst
deriving DecidableEq, Repr

/-- One guest-memory access performed by an operation, with its ordering
where the source specifies one. -/
inductive MemEvent where
  | loadU16 : Nat → MemOrder → MemEvent
  | storeU16 : Nat → Nat → MemOrder → MemEvent
  | readU16 : Nat → MemEvent
  | readDescAt : Nat → MemEvent
  | writeElem : Nat → VirtqUsedElem → MemEvent
  | fence : MemOrder → MemEvent
deriving DecidableEq, Repr

/-- The guest-memory collaborator: oracles for the outcome of reads and
the success of writes, plus the address-space membership test. -/
structure GuestMem where
  readDesc : Nat → Option Descriptor
  read16 : Nat → Option Nat
  writeOk : Nat → Bool
  address_in_range : Nat → Bool

/-- The traversal state of DescriptorChain. -/
structure DescriptorChain where
  desc_table : Nat
  queue_size : Nat
  head_index : Nat
  next_index : Nat
  ttl : Nat
  is_indirect : Bool
deriving DecidableEq, Repr

/-- DescriptorChain.with_ttl. -/
def DescriptorChain.with_ttl (desc_table queue_size ttl head_index : Nat) :
    DescriptorChain :=
  { desc_table := desc_table
    queue_size := queue_size
    head_index := head_index
    next_index := head_index
    ttl := ttl
    is_indirect := false }

/-- DescriptorChain.new: the initial ttl is the queue size. -/
def DescriptorChain.new (desc_table queue_size head_index : Nat) :
    DescriptorChain :=
  DescriptorChain.with_ttl desc_table queue_size queue_size head_index

/-- Address of the descriptor the chain reads next:
desc_table + next_index * 16, by unchecked (wrapping) u64 addition. -/
def descAddr (s : DescriptorChain) : Nat :=
  uadd s.desc_table (s.next_index * 16)

/-- DescriptorChain.process_indirect_descriptor: switch the traversal to
the indirect table described by d, or fail. -/
def processIndirect (s : DescriptorChain) (d : Descriptor) :
    Except Error DescriptorChain :=
  if s.is_indirect then .error .InvalidIndirectDescriptor
  else if d.addr &&& 15 ≠ 0 ∨ d.len &&& 15 ≠ 0 ∨ 65535 < d.len / 16 then
    .error .InvalidIndirectDescriptorTable
  else
    .ok { s with
            desc_table := d.addr
            queue_size := d.len / 16
            next_index := 0
            ttl := d.len / 16
            is_indirect := true }

/-- Result of one attempt of the iterator body: terminate, yield a
descriptor, or switch into an indirect table and retry. -/
inductive StepRes where
  | stop : StepRes
  | yield : Descriptor → DescriptorChain → StepRes
  | expand : DescriptorChain → StepRes
deriving DecidableEq, Repr

/-- One pass of the body of the DescriptorChain Iterator::next, up to the
point where the source either returns or restarts after indirect
expansion. -/
def chainStep (mem : GuestMem) (s : DescriptorChain) : StepRes :=
  if s.ttl = 0 ∨ s.queue_size ≤ s.next_index then .stop
  else
    match mem.readDesc (descAddr s) with
    | none => .stop
    | some d =>
      if d.is_indirect then
        match processIndirect s d with
        | .error _ => .stop
        | .ok t => .expand t
      else if d.has_next then
        .yield d { s with next_index := d.next, ttl := s.ttl - 1 }
      else
        .yield d { s with ttl := 0 }

/-- DescriptorChain Iterator::next.  The source restarts its body after a
successful indirect expansion; a second expansion is impossible because
process_indirect_descriptor fails once is_indirect is set, so one unrolled
retry is exhaustive (the inner expand arm is unreachable). -/
def chainNext (mem : GuestMem) (s : DescriptorChain) :
    Option (Descriptor × DescriptorChain) :=
  match chainStep mem s with
  | .stop => none
  | .yield d t => some (d, t)
  | .expand t =>
    match chainStep mem t with
    | .yield d u => some (d, u)
    | _ => none

/-- Termination measure of the traversal: switching into an indirect table
clears the high summand and bounds ttl by 65535, every yield decrements
ttl. -/
def chainMeasure (s : DescriptorChain) : Nat :=
  (if s.is_indirect then 0 else U16) + s.ttl

/-- The full (finite) sequence of descriptors the chain yields. -/
def chainList (mem : GuestMem) (s : DescriptorChain) : List Descriptor :=
  match h : chainNext mem s with
  | none => []
  | some (d, t) => d :: chainList mem t
termination_by chainMeasure s
decreasing_by
  simp only [chainNext] at h
  split at h
  · exact absurd h (by simp)
  · rename_i d1 t1 hs
    simp only [Option.some.injEq, Prod.mk.injEq] at h
    obtain ⟨-, ht⟩ := h
    subst ht
    unfold chainStep at hs
    split at hs
    · exact absurd hs (by simp)
    · split at hs
      · exact absurd hs (by simp)
      · split at hs
        · split at hs <;> exact absurd hs (by simp)
        · split at hs <;>
          · simp only [StepRes.yield.injEq] at hs
            obtain ⟨-, h1⟩ := hs
            subst h1
            simp only [chainMeasure]
            omega
  · rename_i t1 hs
    split at h
    · rename_i d2 u hs2
      simp only [Option.some.injEq, Prod.mk.injEq] at h
      obtain ⟨-, ht⟩ := h
      subst ht
      unfold chainStep at hs
      split at hs
      · exact absurd hs (by simp)
      · split at hs
        · exact absurd hs (by simp)
        · split at hs
          · split at hs
            · exact absurd hs (by simp)
            · rename_i hok
              simp only [StepRes.expand.injEq] at hs
              subst hs
              unfold processIndirect at hok
              split at hok
              · exact absurd hok (by simp)
              · rename_i hni
                split at hok
                · exact absurd hok (by simp)
                · rename_i hcond
                  simp only [Except.ok.injEq] at hok
                  subst hok
                  unfold chainStep at hs2
                  split at hs2
                  · exact absurd hs2 (by simp)
                  · split at hs2
                    · exact absurd hs2 (by simp)
                    · split at hs2
                      · split at hs2 <;> exact absurd hs2 (by simp)
                      · split at hs2 <;>
                        · simp only [StepRes.yield.injEq] at hs2
                          obtain ⟨-, h1⟩ := hs2
                          subst h1
                          simp [chainMeasure, U16, hni]
                          all_goals omega
          · split at hs <;> exact absurd hs (by simp)
    · exact absurd h (by simp)

/-- Whether the traversal ever switches into an indirect table, and if so
the element count of that table (the new queue size). -/
def chainEntersIndirect (mem : GuestMem) (s : DescriptorChain) : Option Nat :=
  match h : chainStep mem s with
  | .stop => none
  | .expand t => some t.queue_size
  | .yield _ t => chainEntersIndirect mem t
termination_by chainMeasure s
decreasing_by
  unfold chainStep at h
  split at h
  · exact absurd h (by simp)
  · split at h
    · exact absurd h (by simp)
    · split at h
      · split at h <;> exact absurd h (by simp)
      · split at h <;>
        · simp only [StepRes.yield.injEq] at h
          obtain ⟨-, h1⟩ := h
          subst h1
          simp only [chainMeasure]
          omega

/-- The DescriptorChainRwIter adapter: its loop skips the descriptors of
the underlying chain whose write-only flag differs from the selector, so
the sequence it produces is the filtered chain sequence. -/
def rwIterList (mem : GuestMem) (s : DescriptorChain) (writable : Bool) :
    List Descriptor :=
  (chainList mem s).filter (fun d => d.is_write_only == writable)

/-- The device-side queue state.  The guest-memory handle is passed to
each operation explicitly instead of being stored. -/
structure Queue where
  max_size : Nat
  next_avail : Nat
  next_used : Nat
  event_idx_enabled : Bool
  signalled_used : Option Nat
  size : Nat
  ready : Bool
  desc_table : Nat
  avail_ring : Nat
  used_ring : Nat
deriving DecidableEq, Repr

/-- Queue.actual_size. -/
def Queue.actual_size (q : Queue) : Nat := min q.size q.max_size

/-- Queue.is_valid. -/
def is_valid (mem : GuestMem) (q : Queue) : Bool :=
  if ¬q.ready then false
  else if q.max_size < q.size ∨ q.size = 0 ∨ q.size &&& (q.size - 1) ≠ 0 then
    false
  else if (checked_add q.desc_table (16 * q.actual_size)).elim true
            (fun v => !mem.address_in_range v) then false
  else if (checked_add q.avail_ring (6 + 2 * q.actual_size)).elim true
            (fun v => !mem.address_in_range v) then false
  else if (checked_add q.used_ring (6 + 8 * q.actual_size)).elim true
            (fun v => !mem.address_in_range v) then false
  else if q.desc_table &&& 0xf ≠ 0 then false
  else if q.avail_ring &&& 0x1 ≠ 0 then false
  else if q.used_ring &&& 0x3 ≠ 0 then false
  else true

/-- Queue.avail_idx.  Note the source computes the load address from
used_ring, not avail_ring. -/
def avail_idx (mem : GuestMem) (q : Queue) (order : MemOrder) :
    Except Error Nat × List MemEvent :=
  match mem.read16 (uadd q.used_ring 2) with
  | some v => (.ok v, [.loadU16 (uadd q.used_ring 2) order])
  | none => (.error .GuestMemory, [.loadU16 (uadd q.used_ring 2) order])

/-- The state of the available-ring iterator (the mutable borrow of the
queue cursor becomes an explicit field returned updated). -/
structure AvailIter where
  desc_table : Nat
  avail_ring : Nat
  last_index : Nat
  queue_size : Nat
  next_avail : Nat
deriving DecidableEq, Repr

/-- Queue.iter: snapshot the published index with acquire ordering and
build the iterator. -/
def Queue.iter (mem : GuestMem) (q : Queue) :
    Except Error AvailIter × List MemEvent :=
  match avail_idx mem q .acquire with
  | (.ok idx, tr) =>
    (.ok { desc_table := q.desc_table
           avail_ring := q.avail_ring
           last_index := idx
           queue_size := q.actual_size
           next_avail := q.next_avail }, tr)
  | (.error e, tr) => (.error e, tr)

/-- AvailIter Iterator::next. -/
def availIterNext (mem : GuestMem) (it : AvailIter) :
    Option (DescriptorChain × AvailIter) × List MemEvent :=
  if it.next_avail = it.last_index then (none, [])
  else
    match mem.read16 (uadd it.avail_ring
        (4 + (it.next_avail % it.queue_size) * 2)) with
    | none => (none, [.readU16 (uadd it.avail_ring
        (4 + (it.next_avail % it.queue_size) * 2))])
    | some head_index =>
      (some (DescriptorChain.new it.desc_table it.queue_size head_index,
             { it with next_avail := (it.next_avail + 1) % U16 }),
       [.readU16 (uadd it.avail_ring
        (4 + (it.next_avail % it.queue_size) * 2))])

/-- Queue.add_used. -/
def add_used (mem : GuestMem) (q : Queue) (head_index len : Nat) :
    Except Error Unit × Queue × List MemEvent :=
  if q.actual_size ≤ head_index then (.error .InvalidDescriptorIndex, q, [])
  else
    if mem.writeOk (uadd q.used_ring (4 + (q.next_used % q.actual_size) * 8))
    then
      if mem.writeOk (uadd q.used_ring 2) then
        (.ok (), { q with next_used := (q.next_used + 1) % U16 },
         [.writeElem (uadd q.used_ring (4 + (q.next_used % q.actual_size) * 8))
            (VirtqUsedElem.new head_index len),
          .storeU16 (uadd q.used_ring 2) ((q.next_used + 1) % U16) .release])
      else
        (.error .GuestMemory, { q with next_used := (q.next_used + 1) % U16 },
         [.writeElem (uadd q.used_ring (4 + (q.next_used % q.actual_size) * 8))
            (VirtqUsedElem.new head_index len),
          .storeU16 (uadd q.used_ring 2) ((q.next_used + 1) % U16) .release])
    else
      (.error .GuestMemory, q,
       [.writeElem (uadd q.used_ring (4 + (q.next_used % q.actual_size) * 8))
          (VirtqUsedElem.new head_index len)])

/-- Queue.set_avail_event.  The source computes the offset in u16
arithmetic before widening to u64, hence the reductions modulo U16. -/
def set_avail_event (mem : GuestMem) (q : Queue) (val : Nat)
    (order : MemOrder) : Except Error Unit × List MemEvent :=
  if mem.writeOk (uadd q.used_ring ((4 + (q.actual_size * 8) % U16) % U16))
  then
    (.ok (),
     [.storeU16 (uadd q.used_ring ((4 + (q.actual_size * 8) % U16) % U16))
        val order])
  else
    (.error .GuestMemory,
     [.storeU16 (uadd q.used_ring ((4 + (q.actual_size * 8) % U16) % U16))
        val order])

/-- Queue.set_used_flags. -/
def set_used_flags (mem : GuestMem) (q : Queue) (val : Nat)
    (order : MemOrder) : Except Error Unit × List MemEvent :=
  if mem.writeOk q.used_ring then (.ok (), [.storeU16 q.used_ring val order])
  else (.error .GuestMemory, [.storeU16 q.used_ring val order])

/-- Queue.set_notification. -/
def set_notification (mem : GuestMem) (q : Queue) (enable : Bool) :
    Except Error Unit × List MemEvent :=
  if enable then
    if q.event_idx_enabled then set_avail_event mem q q.next_avail .relaxed
    else set_used_flags mem q 0 .relaxed
  else if !q.event_idx_enabled then
    set_used_flags mem q VIRTQ_USED_F_NO_NOTIFY .relaxed
  else (.ok (), [])

/-- Queue.enable_notification: write the enable side, fence, then reread
the published index with relaxed ordering and report whether it moved past
the cursor. -/
def enable_notification (mem : GuestMem) (q : Queue) :
    Except Error Bool × List MemEvent :=
  match set_notification mem q true with
  | (.error e, tr) => (.error e, tr)
  | (.ok _, tr) =>
    match avail_idx mem q .relaxed with
    | (.ok idx, tr2) =>
      (.ok (idx != q.next_avail), tr ++ [.fence .seqCst] ++ tr2)
    | (.error e, tr2) => (.error e, tr ++ [.fence .seqCst] ++ tr2)

/-- Queue.disable_notification. -/
def disable_notification (mem : GuestMem) (q : Queue) :
    Except Error Unit × List MemEvent :=
  set_notification mem q false

/-- Queue.used_event.  The source computes the offset in u16 arithmetic
before widening to u64, hence the reductions modulo U16. -/
def used_event (mem : GuestMem) (q : Queue) (order : MemOrder) :
    Except Error Nat × List MemEvent :=
  match mem.read16 (uadd q.avail_ring ((4 + (q.actual_size * 2) % U16) % U16))
  with
  | some v =>
    (.ok v,
     [.loadU16 (uadd q.avail_ring ((4 + (q.actual_size * 2) % U16) % U16))
        order])
  | none =>
    (.error .GuestMemory,
     [.loadU16 (uadd q.avail_ring ((4 + (q.actual_size * 2) % U16) % U16))
        order])

/-- Queue.needs_notification.  The replace of signalled_used happens
before the used_event load, so the cursor is remembered even if that load
fails. -/
def needs_notification (mem : GuestMem) (q : Queue) :
    Except Error Bool × Queue × List MemEvent :=
  if q.event_idx_enabled then
    match q.signalled_used with
    | some old_idx =>
      match used_event mem q .relaxed with
      | (.ok ue, tr) =>
        if wsub q.next_used old_idx ≤ wsub (wsub q.next_used ue) 1 then
          (.ok false, { q with signalled_used := some q.next_used },
           .fence .seqCst :: tr)
        else
          (.ok true, { q with signalled_used := some q.next_used },
           .fence .seqCst :: tr)
      | (.error e, tr) =>
        (.error e, { q with signalled_used := some q.next_used },
         .fence .seqCst :: tr)
    | none =>
      (.ok true, { q with signalled_used := some q.next_used },
       [.fence .seqCst])
  else (.ok true, q, [.fence .seqCst])

/-- Membership of a whole byte span in the guest address space: the
reading of the specification sentence on is_valid bounds checking. -/
def spanIn (mem : GuestMem) (base len : Nat) : Prop :=
  ∀ i < len, mem.address_in_range (base + i) = true

instance (mem : GuestMem) (base len : Nat) : Decidable (spanIn mem base len) :=
  inferInstanceAs
    (Decidable (∀ i, i < len → mem.address_in_range (base + i) = true))

/-- Claim C6 as written, modelled from the spec wording: each ring byte
span lies entirely within the guest address space. -/
def is_valid_claim (mem : GuestMem) (q : Queue) : Prop :=
  q.ready = true ∧
  (∃ k, q.size = 2 ^ k) ∧
  1 ≤ q.size ∧ q.size ≤ q.max_size ∧
  spanIn mem q.desc_table (16 * q.size) ∧
  spanIn mem q.avail_ring (6 + 2 * q.size) ∧
  spanIn mem q.used_ring (6 + 8 * q.size) ∧
  q.desc_table % 16 = 0 ∧ q.avail_ring % 2 = 0 ∧ q.used_ring % 4 = 0

/-- The amended reading of claim C6: the code requires the one-past-the-end
address of each ring to be inside the guest address space itself, and the
u64 computation of that address not to overflow. -/
def is_valid_amended (mem : GuestMem) (q : Queue) : Prop :=
  q.ready = true ∧
  (∃ k, q.size = 2 ^ k) ∧
  q.size ≤ q.max_size ∧
  q.desc_table + 16 * q.size < U64 ∧
  mem.address_in_range (q.desc_table + 16 * q.size) = true ∧
  q.avail_ring + (6 + 2 * q.size) < U64 ∧
  mem.address_in_range (q.avail_ring + (6 + 2 * q.size)) = true ∧
  q.used_ring + (6 + 8 * q.size) < U64 ∧
  mem.address_in_range (q.used_ring + (6 + 8 * q.size)) = true ∧
  q.desc_table % 16 = 0 ∧ q.avail_ring % 2 = 0 ∧ q.used_ring % 4 = 0

/-- Permissive concrete guest memory for witnesses: reads return zero
values, writes succeed, every address is in range. -/
def memW : GuestMem :=
  { readDesc := fun _ => some { addr := 0, len := 0, flags := 0, next := 0 }
    read16 := fun _ => some 0
    writeOk := fun _ => true
    address_in_range := fun _ => true }

/-- Concrete guest memory whose word at 0x1002 (the avail-ring idx of qC1)
holds 7 while the word at 0x2002 (inside the used ring of qC1) holds 0. -/
def memC1 : GuestMem :=
  { readDesc := fun _ => none
    read16 := fun a =>
      if a = 0x1002 then some 7 else if a = 0x2002 then some 0 else none
    writeOk := fun _ => true
    address_in_range := fun _ => true }

def qC1 : Queue :=
  { max_size := 16, next_avail := 0, next_used := 0
    event_idx_enabled := false, signalled_used := none, size := 16
    ready := true, desc_table := 0, avail_ring := 0x1000, used_ring := 0x2000 }

/-- Concrete descriptor table: slot 0 links to slot 1; slot 1 is an
indirect descriptor whose table at 0x2000 has exactly one element. -/
def memC3 : GuestMem :=
  { readDesc := fun a =>
      if a = 0 then some { addr := 0x3000, len := 0x1000, flags := 1, next := 1 }
      else if a = 16 then some { addr := 0x2000, len := 16, flags := 4, next := 0 }
      else if a = 0x2000 then
        some { addr := 0x4000, len := 0x100, flags := 0, next := 0 }
      else none
    read16 := fun _ => none
    writeOk := fun _ => false
    address_in_range := fun _ => true }

/-- Concrete descriptor table whose head is an indirect descriptor with a
misaligned (addr 0x1001) indirect table. -/
def memC7 : GuestMem :=
  { readDesc := fun a =>
      if a = 0 then some { addr := 0x1001, len := 0x1000, flags := 4, next := 0 }
      else none
    read16 := fun _ => none
    writeOk := fun _ => false
    address_in_range := fun _ => true }

/-- Concrete guest address space holding exactly the addresses below 38. -/
def memC6 : GuestMem :=
  { readDesc := fun _ => none
    read16 := fun _ => none
    writeOk := fun _ => false
    address_in_range := fun a => decide (a < 38) }

/-- A queue of size 1 whose three rings tile the address space 0..37
exactly: spans fit, but the one-past-the-end address 38 is not in range. -/
def qC6 : Queue :=
  { max_size := 1, next_avail := 0, next_used := 0
    event_idx_enabled := false, signalled_used := none, size := 1
    ready := true, desc_table := 0, avail_ring := 16, used_ring := 24 }

def qC6w : Queue :=
  { max_size := 4, next_avail := 0, next_used := 0
    event_idx_enabled := false, signalled_used := none, size := 4
    ready := true, desc_table := 0, avail_ring := 0x1000, used_ring := 0x2000 }

def qW : Queue :=
  { max_size := 4, next_avail := 0, next_used := 5
    event_idx_enabled := false, signalled_used := none, size := 4
    ready := true, desc_table := 0, avail_ring := 0x1000, used_ring := 0x2000 }

def qC4 : Queue := { qW with event_idx_enabled := true, signalled_used := some 3 }

def qC4b : Queue := { qW with event_idx_enabled := true, signalled_used := none }

/-- A valid-looking queue of size 8192 with event-idx negotiated: the
avail-event offset 4 + 8 * 8192 = 65540 wraps to 4 in u16 arithmetic. -/
def qC5a : Queue :=
  { max_size := 8192, next_avail := 3, next_used := 0
    event_idx_enabled := true, signalled_used := none, size := 8192
    ready := true, desc_table := 0, avail_ring := 0, used_ring := 0 }

/-- A queue of size 32768: the used-event offset 4 + 2 * 32768 = 65540
wraps to 4 in u16 arithmetic. -/
def qC5b : Queue :=
  { max_size := 32768, next_avail := 0, next_used := 0
    event_idx_enabled := true, signalled_used := some 0, size := 32768
    ready := true, desc_table := 0, avail_ring := 0, used_ring := 0 }

def itC8 : AvailIter :=
  { desc_table := 0, avail_ring := 0x1000, last_index := 2
    queue_size := 4, next_avail := 0 }

/-- A chain state whose next link points past the ring size. -/
def cC9 : DescriptorChain := DescriptorChain.new 0 4 9

/-! Helper lemmas. -/

/-- A positive number with no bit shared with its predecessor is exactly a
power of two. -/
theorem land_pred_eq_zero_iff (n : Nat) (h : 0 < n) :
    n &&& (n - 1) = 0 ↔ ∃ k, n = 2 ^ k := by
  constructor
  · intro hland
    induction n using Nat.strong_induction_on with
    | _ n ih =>
      rcases Nat.even_or_odd n with he | ho
      · obtain ⟨m, hm⟩ := he
        have hm2 : n = 2 * m := by omega
        have hmpos : 0 < m := by omega
        have hml : m &&& (m - 1) = 0 := by
          refine Nat.eq_of_testBit_eq fun i => ?_
          have hb : Nat.testBit (n &&& (n - 1)) (i + 1) = false := by
            rw [hland]; simp
          rw [Nat.testBit_and, Nat.testBit_add_one, Nat.testBit_add_one] at hb
          have e1 : n / 2 = m := by omega
          have e2 : (n - 1) / 2 = m - 1 := by omega
          rw [e1, e2] at hb
          simp [hb]
        obtain ⟨k, hk⟩ := ih m (by omega) hmpos hml
        exact ⟨k + 1, by rw [hm2, hk, Nat.pow_succ]; ring⟩
      · obtain ⟨m, hm⟩ := ho
        rcases Nat.eq_zero_or_pos m with hm0 | hmpos
        · exact ⟨0, by omega⟩
        · exfalso
          obtain ⟨j, hj⟩ := Nat.ne_zero_implies_bit_true (x := m) (by omega)
          have hb : Nat.testBit (n &&& (n - 1)) (j + 1) = false := by
            rw [hland]; simp
          rw [Nat.testBit_and, Nat.testBit_add_one, Nat.testBit_add_one] at hb
          have e1 : n / 2 = m := by omega
          have e2 : (n - 1) / 2 = m := by omega
          rw [e1, e2] at hb
          simp [hj] at hb
  · rintro ⟨k, rfl⟩
    refine Nat.eq_of_testBit_eq fun i => ?_
    simp only [Nat.testBit_and, Nat.zero_testBit, Nat.testBit_two_pow,
      Nat.testBit_two_pow_sub_one]
    by_cases hik : k = i <;> simp [hik]

theorem and_mask_fifteen (a : Nat) : a &&& 15 = a % 16 := by
  have h := Nat.and_pow_two_sub_one_eq_mod a 4
  norm_num at h
  exact h

theorem and_mask_one (a : Nat) : a &&& 1 = a % 2 :=
  Nat.and_one_is_mod a

theorem and_mask_three (a : Nat) : a &&& 3 = a % 4 := by
  have h := Nat.and_pow_two_sub_one_eq_mod a 2
  norm_num at h
  exact h

/-- The bound check of is_valid holds exactly when the one-past-the-end
address exists in u64 and is in range. -/
theorem checked_elim_iff (mem : GuestMem) (a b : Nat) :
    ¬((checked_add a b).elim true (fun v => !mem.address_in_range v) = true)
      ↔ a + b < U64 ∧ mem.address_in_range (a + b) = true := by
  unfold checked_add
  by_cases hlt : a + b < U64 <;> simp [hlt]

theorem ite_false_true {c : Prop} [Decidable c] {x : Bool} :
    ((if c then false else x) = true) ↔ ¬c ∧ x = true := by
  split <;> simp [*]

/-- Facts extracted from a yielding step of the chain iterator body. -/
theorem chainStep_yield_facts {mem : GuestMem} {s : DescriptorChain}
    {d : Descriptor} {t : DescriptorChain}
    (h : chainStep mem s = .yield d t) :
    s.ttl ≠ 0 ∧ t.is_indirect = s.is_indirect ∧ t.ttl < s.ttl ∧
      t.queue_size = s.queue_size ∧ d.is_indirect = false := by
  unfold chainStep at h
  split at h
  · simp at h
  · rename_i hguard
    split at h
    · simp at h
    · rename_i d1 hread
      split at h
      · split at h <;> simp at h
      · rename_i hind
        split at h <;>
        · simp only [StepRes.yield.injEq] at h
          obtain ⟨hd, ht⟩ := h
          subst hd; subst ht
          simp only [Bool.not_eq_true] at hind
          refine ⟨by omega, by simp, by simp; omega, by simp, hind⟩

/-- Facts extracted from an expanding (indirect) step of the chain
iterator body. -/
theorem chainStep_expand_facts {mem : GuestMem} {s : DescriptorChain}
    {t : DescriptorChain} (h : chainStep mem s = .expand t) :
    s.ttl ≠ 0 ∧ s.is_indirect = false ∧ t.is_indirect = true ∧
      t.ttl = t.queue_size ∧ t.queue_size ≤ 65535 := by
  unfold chainStep at h
  split at h
  · simp at h
  · rename_i hguard
    split at h
    · simp at h
    · rename_i d1 hread
      split at h
      · rename_i hind
        split at h
        · simp at h
        · rename_i hok
          simp only [StepRes.expand.injEq] at h
          subst h
          unfold processIndirect at hok
          split at hok
          · simp at hok
          · rename_i hni
            split at hok
            · simp at hok
            · rename_i hcond
              simp only [Except.ok.injEq] at hok
              subst hok
              simp only [Bool.not_eq_true] at hni
              push_neg at hcond
              refine ⟨by omega, hni, by simp, by simp, by simp; omega⟩
      · split at h <;> simp at h

theorem chainNext_of_stop {mem : GuestMem} {s : DescriptorChain}
    (h : chainStep mem s = .stop) : chainNext mem s = none := by
  simp [chainNext, h]

theorem chainNext_of_yield {mem : GuestMem} {s : DescriptorChain}
    {d : Descriptor} {t : DescriptorChain}
    (h : chainStep mem s = .yield d t) : chainNext mem s = some (d, t) := by
  simp [chainNext, h]

theorem chainNext_expand_yield {mem : GuestMem} {s t u : DescriptorChain}
    {d : Descriptor} (h1 : chainStep mem s = .expand t)
    (h2 : chainStep mem t = .yield d u) : chainNext mem s = some (d, u) := by
  simp [chainNext, h1, h2]

theorem chainNext_expand_stop {mem : GuestMem} {s t : DescriptorChain}
    (h1 : chainStep mem s = .expand t) (h2 : chainStep mem t = .stop) :
    chainNext mem s = none := by
  simp [chainNext, h1, h2]

/-- A second expansion in a row is impossible: the first one sets the
is_indirect flag, which process_indirect_descriptor rejects. -/
theorem chainNext_expand_expand {mem : GuestMem} {s t u : DescriptorChain}
    (h1 : chainStep mem s = .expand t) (h2 : chainStep mem t = .expand u) :
    False := by
  have f1 := chainStep_expand_facts h1
  have f2 := chainStep_expand_facts h2
  rw [f1.2.2.1] at f2
  exact absurd f2.2.1 (by simp)

theorem chainList_eq_nil {mem : GuestMem} {s : DescriptorChain}
    (h : chainNext mem s = none) : chainList mem s = [] := by
  rw [chainList.eq_def]
  split
  · rfl
  · rename_i d t heq
    rw [h] at heq
    cases heq

theorem chainList_eq_cons {mem : GuestMem} {s : DescriptorChain}
    {d : Descriptor} {t : DescriptorChain}
    (h : chainNext mem s = some (d, t)) :
    chainList mem s = d :: chainList mem t := by
  rw [chainList.eq_def]
  split
  · rename_i heq
    rw [h] at heq
    cases heq
  · rename_i d2 t2 heq
    have h2 := h.symm.trans heq
    simp only [Option.some.injEq, Prod.mk.injEq] at h2
    obtain ⟨hd, ht⟩ := h2
    subst hd; subst ht
    rfl

theorem chainEntersIndirect_of_stop {mem : GuestMem} {s : DescriptorChain}
    (h : chainStep mem s = .stop) : chainEntersIndirect mem s = none := by
  rw [chainEntersIndirect.eq_def]
  split
  · rfl
  all_goals (rename_i heq; rw [h] at heq; cases heq)

theorem chainEntersIndirect_of_yield {mem : GuestMem} {s : DescriptorChain}
    {d : Descriptor} {t : DescriptorChain}
    (h : chainStep mem s = .yield d t) :
    chainEntersIndirect mem s = chainEntersIndirect mem t := by
  rw [chainEntersIndirect.eq_def]
  split
  · rename_i heq; rw [h] at heq; cases heq
  · rename_i t2 heq
    rw [h] at heq
    cases heq
  · rename_i d2 t2 heq
    have h2 := h.symm.trans heq
    simp only [StepRes.yield.injEq] at h2
    obtain ⟨-, ht⟩ := h2
    subst ht
    rfl

theorem chainEntersIndirect_of_expand {mem : GuestMem} {s t : DescriptorChain}
    (h : chainStep mem s = .expand t) :
    chainEntersIndirect mem s = some t.queue_size := by
  rw [chainEntersIndirect.eq_def]
  split
  · rename_i heq; rw [h] at heq; cases heq
  · rename_i t2 heq
    have h2 := h.symm.trans heq
    simp only [StepRes.expand.injEq] at h2
    subst h2
    rfl
  · rename_i d2 t2 heq; rw [h] at heq; cases heq

/-- Every successful iterator step strictly decreases the measure. -/
theorem chainNext_measure_lt {mem : GuestMem} {s : DescriptorChain}
    {d : Descriptor} {t : DescriptorChain}
    (h : chainNext mem s = some (d, t)) : chainMeasure t < chainMeasure s := by
  unfold chainNext at h
  split at h
  · cases h
  · rename_i d1 t1 hs
    obtain ⟨h0, hi, hl, -, -⟩ := chainStep_yield_facts hs
    simp only [Option.some.injEq, Prod.mk.injEq] at h
    obtain ⟨-, ht⟩ := h
    subst ht
    simp only [chainMeasure, hi]
    cases s.is_indirect <;> simp <;> omega
  · rename_i t1 hs
    obtain ⟨-, hsi, hti, httl, hq⟩ := chainStep_expand_facts hs
    split at h
    · rename_i d2 u hs2
      obtain ⟨-, hui, hul, -, -⟩ := chainStep_yield_facts hs2
      simp only [Option.some.injEq, Prod.mk.injEq] at h
      obtain ⟨-, ht⟩ := h
      subst ht
      rw [hti] at hui
      simp only [chainMeasure, hsi, hui, U16]
      simp
      omega
    · cases h

theorem ttl_zero_chainStep {mem : GuestMem} {s : DescriptorChain}
    (h : s.ttl = 0) : chainStep mem s = .stop := by
  unfold chainStep
  simp [h]

/-- If the traversal never switches into an indirect table it yields at
most ttl descriptors. -/
theorem chainList_length_of_enters_none :
    ∀ n (mem : GuestMem) (s : DescriptorChain), chainMeasure s ≤ n →
      chainEntersIndirect mem s = none → (chainList mem s).length ≤ s.ttl := by
  intro n
  induction n with
  | zero =>
    intro mem s hm _
    have h0 : s.ttl = 0 := by simp only [chainMeasure] at hm; omega
    rw [chainList_eq_nil (chainNext_of_stop (ttl_zero_chainStep h0))]
    simp
  | succ n ih =>
    intro mem s hm he
    cases hs : chainStep mem s with
    | stop => rw [chainList_eq_nil (chainNext_of_stop hs)]; simp
    | yield d t =>
      obtain ⟨h0, hi, hl, -, -⟩ := chainStep_yield_facts hs
      rw [chainList_eq_cons (chainNext_of_yield hs)]
      rw [chainEntersIndirect_of_yield hs] at he
      have hmt : chainMeasure t ≤ n := by
        have := chainNext_measure_lt (chainNext_of_yield hs)
        omega
      have hrec := ih mem t hmt he
      simp only [List.length_cons]
      omega
    | expand t =>
      rw [chainEntersIndirect_of_expand hs] at he
      cases he

/-- Once inside an indirect table no further switch can happen. -/
theorem chainEntersIndirect_of_indirect :
    ∀ n (mem : GuestMem) (s : DescriptorChain), chainMeasure s ≤ n →
      s.is_indirect = true → chainEntersIndirect mem s = none := by
  intro n
  induction n with
  | zero =>
    intro mem s hm _
    have h0 : s.ttl = 0 := by simp only [chainMeasure] at hm; omega
    exact chainEntersIndirect_of_stop (ttl_zero_chainStep h0)
  | succ n ih =>
    intro mem s hm hind
    cases hs : chainStep mem s with
    | stop => exact chainEntersIndirect_of_stop hs
    | yield d t =>
      obtain ⟨h0, hi, hl, -, -⟩ := chainStep_yield_facts hs
      rw [chainEntersIndirect_of_yield hs]
      have hmt : chainMeasure t ≤ n := by
        have := chainNext_measure_lt (chainNext_of_yield hs)
        omega
      exact ih mem t hmt (hi.trans hind)
    | expand t =>
      obtain ⟨-, hsi, -, -, -⟩ := chainStep_expand_facts hs
      rw [hind] at hsi
      cases hsi

theorem enters_some_ttl_pos {mem : GuestMem} {s : DescriptorChain} {x : Nat}
    (h : chainEntersIndirect mem s = some x) : s.ttl ≠ 0 := by
  cases hs : chainStep mem s with
  | stop => rw [chainEntersIndirect_of_stop hs] at h; cases h
  | yield d t => exact (chainStep_yield_facts hs).1
  | expand t => exact (chainStep_expand_facts hs).1

/-- The element count of an entered indirect table fits in u16. -/
theorem enters_some_le :
    ∀ n (mem : GuestMem) (s : DescriptorChain) (x : Nat), chainMeasure s ≤ n →
      chainEntersIndirect mem s = some x → x ≤ 65535 := by
  intro n
  induction n with
  | zero =>
    intro mem s x hm he
    have h0 : s.ttl = 0 := by simp only [chainMeasure] at hm; omega
    rw [chainEntersIndirect_of_stop (ttl_zero_chainStep h0)] at he
    cases he
  | succ n ih =>
    intro mem s x hm he
    cases hs : chainStep mem s with
    | stop => rw [chainEntersIndirect_of_stop hs] at he; cases he
    | yield d t =>
      rw [chainEntersIndirect_of_yield hs] at he
      have hmt : chainMeasure t ≤ n := by
        have := chainNext_measure_lt (chainNext_of_yield hs)
        omega
      exact ih mem t x hmt he
    | expand t =>
      rw [chainEntersIndirect_of_expand hs] at he
      obtain ⟨-, -, -, -, hq⟩ := chainStep_expand_facts hs
      simp only [Option.some.injEq] at he
      omega

/-- If the traversal switches into an indirect table with x elements, it
yields at most ttl - 1 descriptors before the switch and at most x after
it. -/
theorem chainList_length_of_enters_some :
    ∀ n (mem : GuestMem) (s : DescriptorChain) (x : Nat), chainMeasure s ≤ n →
      chainEntersIndirect mem s = some x →
      (chainList mem s).length ≤ (s.ttl - 1) + x := by
  intro n
  induction n with
  | zero =>
    intro mem s x hm he
    have h0 : s.ttl = 0 := by simp only [chainMeasure] at hm; omega
    rw [chainEntersIndirect_of_stop (ttl_zero_chainStep h0)] at he
    cases he
  | succ n ih =>
    intro mem s x hm he
    cases hs : chainStep mem s with
    | stop => rw [chainEntersIndirect_of_stop hs] at he; cases he
    | yield d t =>
      obtain ⟨h0, hi, hl, -, -⟩ := chainStep_yield_facts hs
      rw [chainList_eq_cons (chainNext_of_yield hs)]
      rw [chainEntersIndirect_of_yield hs] at he
      have hmt : chainMeasure t ≤ n := by
        have := chainNext_measure_lt (chainNext_of_yield hs)
        omega
      have hrec := ih mem t x hmt he
      have htp := enters_some_ttl_pos he
      simp only [List.length_cons]
      omega
    | expand t =>
      rw [chainEntersIndirect_of_expand hs] at he
      simp only [Option.some.injEq] at he
      obtain ⟨-, hsi, hti, httl, hq⟩ := chainStep_expand_facts hs
      cases hs2 : chainStep mem t with
      | stop =>
        rw [chainList_eq_nil (chainNext_expand_stop hs hs2)]
        simp
      | expand u => exact absurd hs2 (fun h2 => chainNext_expand_expand hs h2)
      | yield d u =>
        obtain ⟨-, hui, hul, -, -⟩ := chainStep_yield_facts hs2
        rw [chainList_eq_cons (chainNext_expand_yield hs hs2)]
        rw [hti] at hui
        have hue : chainEntersIndirect mem u = none :=
          chainEntersIndirect_of_indirect (chainMeasure u) mem u le_rfl hui
        have hlen := chainList_length_of_enters_none (chainMeasure u) mem u
          le_rfl hue
        simp only [List.length_cons]
        omega

/-- No yielded descriptor carries the INDIRECT flag. -/
theorem chainList_not_indirect :
    ∀ n (mem : GuestMem) (s : DescriptorChain), chainMeasure s ≤ n →
      ∀ d, d ∈ chainList mem s → d.is_indirect = false := by
  intro n
  induction n with
  | zero =>
    intro mem s hm d hd
    have h0 : s.ttl = 0 := by simp only [chainMeasure] at hm; omega
    rw [chainList_eq_nil (chainNext_of_stop (ttl_zero_chainStep h0))] at hd
    cases hd
  | succ n ih =>
    intro mem s hm d hd
    cases hs : chainStep mem s with
    | stop =>
      rw [chainList_eq_nil (chainNext_of_stop hs)] at hd
      cases hd
    | yield d1 t =>
      rw [chainList_eq_cons (chainNext_of_yield hs)] at hd
      rcases List.mem_cons.mp hd with hh | hh
      · subst hh
        exact (chainStep_yield_facts hs).2.2.2.2
      · have hmt : chainMeasure t ≤ n := by
          have := chainNext_measure_lt (chainNext_of_yield hs)
          omega
        exact ih mem t hmt d hh
    | expand t =>
      cases hs2 : chainStep mem t with
      | stop =>
        rw [chainList_eq_nil (chainNext_expand_stop hs hs2)] at hd
        cases hd
      | expand u => exact absurd hs2 (fun h2 => chainNext_expand_expand hs h2)
      | yield d1 u =>
        rw [chainList_eq_cons (chainNext_expand_yield hs hs2)] at hd
        rcases List.mem_cons.mp hd with hh | hh
        · subst hh
          exact (chainStep_yield_facts hs2).2.2.2.2
        · have hmu : chainMeasure u ≤ n := by
            have := chainNext_measure_lt (chainNext_expand_yield hs hs2)
            omega
          exact ih mem u hmu d hh

/-! Claim theorems. -/

/-- C3 (amended): a DescriptorChain constructed with queue size size
yields at most size descriptors when it never enters an indirect table;
when it enters an indirect table with t elements it yields at most
(size - 1) + t descriptors in total (those before the switch plus at most
t after it); in every case iteration terminates after at most
size + 65535 yields. -/
theorem C3_chain_bounds (mem : GuestMem) (dt size head : Nat)
    (r : Option Nat)
    (hr : chainEntersIndirect mem (DescriptorChain.new dt size head) = r) :
    (chainList mem (DescriptorChain.new dt size head)).length ≤
      (match r with | none => size | some t => (size - 1) + t) ∧
    (chainList mem (DescriptorChain.new dt size head)).length ≤
      size + 65535 := by
  have httl : (DescriptorChain.new dt size head).ttl = size := rfl
  cases r with
  | none =>
    have h := chainList_length_of_enters_none
      (chainMeasure (DescriptorChain.new dt size head)) mem _ le_rfl hr
    rw [httl] at h
    exact ⟨h, by omega⟩
  | some t =>
    have h := chainList_length_of_enters_some
      (chainMeasure (DescriptorChain.new dt size head)) mem _ t le_rfl hr
    have ht := enters_some_le
      (chainMeasure (DescriptorChain.new dt size head)) mem _ t le_rfl hr
    rw [httl] at h
    exact ⟨h, by omega⟩

/-- C3 counterexample: on memC3 the chain of head 0 in a size-16 ring
yields one direct descriptor, then enters an indirect table with exactly
1 element and yields one more: 2 descriptors in total, more than the
entered table's element count. -/
theorem C3_counterexample :
    chainEntersIndirect memC3 (DescriptorChain.new 0 16 0) = some 1 ∧
    (chainList memC3 (DescriptorChain.new 0 16 0)).length = 2 ∧
    ¬((chainList memC3 (DescriptorChain.new 0 16 0)).length ≤ 1) := by
  have s0 : chainStep memC3 (DescriptorChain.new 0 16 0) =
      .yield ⟨0x3000, 0x1000, 1, 1⟩ ⟨0, 16, 0, 1, 15, false⟩ := by decide
  have s1 : chainStep memC3 ⟨0, 16, 0, 1, 15, false⟩ =
      .expand ⟨0x2000, 1, 0, 0, 1, true⟩ := by decide
  have s2 : chainStep memC3 ⟨0x2000, 1, 0, 0, 1, true⟩ =
      .yield ⟨0x4000, 0x100, 0, 0⟩ ⟨0x2000, 1, 0, 0, 0, true⟩ := by decide
  have s3 : chainStep memC3 ⟨0x2000, 1, 0, 0, 0, true⟩ = .stop := by decide
  have hlist : chainList memC3 (DescriptorChain.new 0 16 0) =
      [⟨0x3000, 0x1000, 1, 1⟩, ⟨0x4000, 0x100, 0, 0⟩] := by
    rw [chainList_eq_cons (chainNext_of_yield s0),
        chainList_eq_cons (chainNext_expand_yield s1 s2),
        chainList_eq_nil (chainNext_of_stop s3)]
  refine ⟨?_, by rw [hlist]; rfl, by rw [hlist]; decide⟩
  rw [chainEntersIndirect_of_yield s0, chainEntersIndirect_of_expand s1]

/-- C3 witness: a concrete direct chain respects the size bound. -/
theorem C3_witness :
    (chainList memW (DescriptorChain.new 0 4 0)).length ≤ 4 := by
  have s0 : chainStep memW (DescriptorChain.new 0 4 0) =
      .yield ⟨0, 0, 0, 0⟩ ⟨0, 4, 0, 0, 0, false⟩ := by decide
  have s1 : chainStep memW ⟨0, 4, 0, 0, 0, false⟩ = .stop := by decide
  have hr : chainEntersIndirect memW (DescriptorChain.new 0 4 0) = none := by
    rw [chainEntersIndirect_of_yield s0, chainEntersIndirect_of_stop s1]
  exact (C3_chain_bounds memW 0 4 0 none hr).1

/-- C10: every descriptor yielded by the chain iterator, and hence by the
readable/writable filter iterators, has the INDIRECT flag clear. -/
theorem C10_yields_never_indirect (mem : GuestMem) (s : DescriptorChain)
    (w : Bool) (d : Descriptor) :
    (d ∈ chainList mem s → d.is_indirect = false) ∧
    (d ∈ rwIterList mem s w → d.is_indirect = false) := by
  constructor
  · intro hd
    exact chainList_not_indirect (chainMeasure s) mem s le_rfl d hd
  · intro hd
    unfold rwIterList at hd
    exact chainList_not_indirect (chainMeasure s) mem s le_rfl d
      (List.mem_of_mem_filter hd)

/-- C10 witness: the descriptors yielded in the concrete memC3 run carry
no INDIRECT flag, both through the plain chain and through the readable
filter. -/
theorem C10_witness :
    Descriptor.is_indirect ⟨0x3000, 0x1000, 1, 1⟩ = false ∧
    Descriptor.is_indirect ⟨0x4000, 0x100, 0, 0⟩ = false := by
  have s0 : chainStep memC3 (DescriptorChain.new 0 16 0) =
      .yield ⟨0x3000, 0x1000, 1, 1⟩ ⟨0, 16, 0, 1, 15, false⟩ := by decide
  have s1 : chainStep memC3 ⟨0, 16, 0, 1, 15, false⟩ =
      .expand ⟨0x2000, 1, 0, 0, 1, true⟩ := by decide
  have s2 : chainStep memC3 ⟨0x2000, 1, 0, 0, 1, true⟩ =
      .yield ⟨0x4000, 0x100, 0, 0⟩ ⟨0x2000, 1, 0, 0, 0, true⟩ := by decide
  have s3 : chainStep memC3 ⟨0x2000, 1, 0, 0, 0, true⟩ = .stop := by decide
  have hlist : chainList memC3 (DescriptorChain.new 0 16 0) =
      [⟨0x3000, 0x1000, 1, 1⟩, ⟨0x4000, 0x100, 0, 0⟩] := by
    rw [chainList_eq_cons (chainNext_of_yield s0),
        chainList_eq_cons (chainNext_expand_yield s1 s2),
        chainList_eq_nil (chainNext_of_stop s3)]
  constructor
  · refine (C10_yields_never_indirect memC3 (DescriptorChain.new 0 16 0)
      false ⟨0x3000, 0x1000, 1, 1⟩).1 ?_
    rw [hlist]
    simp
  · refine (C10_yields_never_indirect memC3 (DescriptorChain.new 0 16 0)
      false ⟨0x4000, 0x100, 0, 0⟩).2 ?_
    unfold rwIterList
    rw [hlist]
    decide

/-- C1 (code bug): avail_idx, and hence iter, loads the published index
from used_ring + 2 rather than avail_ring + 2.  On memC1 the avail-ring
idx field (address 0x1002) holds 7, yet avail_idx returns the 0 found
inside the used ring at 0x2002; the acquire ordering of the iter load is
visible in the trace. -/
theorem C1_avail_idx_wrong_ring :
    avail_idx memC1 qC1 .acquire = (.ok 0, [.loadU16 0x2002 .acquire]) ∧
    uadd qC1.used_ring 2 = 0x2002 ∧
    uadd qC1.avail_ring 2 = 0x1002 ∧
    memC1.read16 (uadd qC1.avail_ring 2) = some 7 ∧
    (Queue.iter memC1 qC1).2 = [.loadU16 0x2002 .acquire] ∧
    (0 : Nat) ≠ 7 :=
  ⟨rfl, rfl, rfl, rfl, rfl, by decide⟩

/-- C5 (code bug): the avail-event and used-event offsets are computed in
u16 arithmetic.  For size 8192 the avail-event offset 4 + 8 * 8192 = 65540
wraps to 4, so enable_notification under event-idx stores the cursor at
used_ring + 4 (inside the used ring); for size 32768 the used-event offset
4 + 2 * 32768 wraps to 4 as well, so needs_notification loads from
avail_ring + 4. -/
theorem C5_event_offsets_wrap :
    (set_avail_event memW qC5a 3 .relaxed).2 = [.storeU16 4 3 .relaxed] ∧
    (enable_notification memW qC5a).2 =
      [.storeU16 4 3 .relaxed, .fence .seqCst, .loadU16 2 .relaxed] ∧
    (used_event memW qC5b .relaxed).2 = [.loadU16 4 .relaxed] ∧
    (needs_notification memW qC5b).2.2 =
      [.fence .seqCst, .loadU16 4 .relaxed] ∧
    (4 : Nat) + 8 * 8192 = 65540 ∧ (4 : Nat) + 2 * 32768 = 65540 ∧
    (4 : Nat) ≠ 65540 :=
  ⟨rfl, rfl, rfl, rfl, rfl, rfl, by decide⟩

/-- C7: indirect expansion fails exactly on nesting, table-address
misalignment, a length not a multiple of 16, or more than 65535 elements;
on failure the chain terminates without yielding the descriptor (the
concrete misaligned head yields nothing); on success the context is
replaced as specified. -/
theorem C7_process_indirect (mem : GuestMem) (s : DescriptorChain)
    (d : Descriptor) :
    (s.is_indirect = true →
      processIndirect s d = .error .InvalidIndirectDescriptor) ∧
    (s.is_indirect = false →
      (d.addr % 16 ≠ 0 ∨ d.len % 16 ≠ 0 ∨ 65535 < d.len / 16) →
      processIndirect s d = .error .InvalidIndirectDescriptorTable) ∧
    (s.is_indirect = false → d.addr % 16 = 0 → d.len % 16 = 0 →
      d.len / 16 ≤ 65535 →
      processIndirect s d =
        .ok { s with
                desc_table := d.addr
                queue_size := d.len / 16
                next_index := 0
                ttl := d.len / 16
                is_indirect := true }) ∧
    (∀ e, mem.readDesc (descAddr s) = some d → d.is_indirect = true →
      processIndirect s d = .error e → chainNext mem s = none) ∧
    chainList memC7 (DescriptorChain.new 0 16 0) = [] := by
  refine ⟨?_, ?_, ?_, ?_, ?_⟩
  · intro hi
    simp [processIndirect, hi]
  · intro hi hcond
    unfold processIndirect
    rw [and_mask_fifteen, and_mask_fifteen]
    rw [if_neg (by simp [hi]), if_pos hcond]
  · intro hi ha hl ht
    unfold processIndirect
    rw [and_mask_fifteen, and_mask_fifteen]
    rw [if_neg (by simp [hi]), if_neg (by omega)]
  · intro e hread hind herr
    have hstep : chainStep mem s = .stop := by
      unfold chainStep
      split
      · rfl
      · rw [hread]
        simp [hind, herr]
    simp [chainNext, hstep]
  · have s0 : chainStep memC7 (DescriptorChain.new 0 16 0) = .stop := by
      decide
    exact chainList_eq_nil (chainNext_of_stop s0)

/-- C7 witness: concrete evaluations of the three expansion outcomes. -/
theorem C7_witness :
    processIndirect ⟨0, 16, 0, 0, 16, false⟩ ⟨0x1001, 0x1000, 4, 0⟩ =
      .error .InvalidIndirectDescriptorTable ∧
    processIndirect ⟨0x2000, 1, 0, 0, 1, true⟩ ⟨0x2000, 16, 4, 0⟩ =
      .error .InvalidIndirectDescriptor ∧
    processIndirect ⟨0, 16, 0, 1, 15, false⟩ ⟨0x2000, 32, 4, 0⟩ =
      .ok ⟨0x2000, 2, 0, 0, 2, true⟩ := by
  refine ⟨(C7_process_indirect memC7 ⟨0, 16, 0, 0, 16, false⟩
            ⟨0x1001, 0x1000, 4, 0⟩).2.1 rfl (by decide),
          (C7_process_indirect memW ⟨0x2000, 1, 0, 0, 1, true⟩
            ⟨0x2000, 16, 4, 0⟩).1 rfl,
          ?_⟩
  exact (C7_process_indirect memW ⟨0, 16, 0, 1, 15, false⟩
    ⟨0x2000, 32, 4, 0⟩).2.2.1 rfl (by decide) (by decide) (by decide)

/-- C2: add_used rejects an out-of-range head leaving everything
unchanged; for a valid head it writes the used element at
used_ring + 4 + (next_used mod size) * 8, increments next_used with u16
wrapping, and publishes the new next_used to used_ring + 2 with release
ordering. -/
theorem C2_add_used (mem : GuestMem) (q : Queue) (head len : Nat)
    (h1 : 1 ≤ q.size) (h2 : q.size ≤ q.max_size)
    (h3 : q.used_ring + (4 + 8 * q.size) < U64) :
    (q.size ≤ head →
      add_used mem q head len = (.error .InvalidDescriptorIndex, q, [])) ∧
    (head < q.size →
      mem.writeOk (q.used_ring + (4 + q.next_used % q.size * 8)) = true →
      mem.writeOk (q.used_ring + 2) = true →
      add_used mem q head len =
        (.ok (), { q with next_used := (q.next_used + 1) % U16 },
         [.writeElem (q.used_ring + (4 + q.next_used % q.size * 8))
            (VirtqUsedElem.new head len),
          .storeU16 (q.used_ring + 2) ((q.next_used + 1) % U16) .release])) := by
  have has : q.actual_size = q.size := min_eq_left h2
  have hm : q.next_used % q.size < q.size := Nat.mod_lt _ (by omega)
  have hmul : (q.next_used % q.size + 1) * 8 ≤ q.size * 8 :=
    Nat.mul_le_mul_right 8 hm
  have ha1 : uadd q.used_ring (4 + q.next_used % q.size * 8) =
      q.used_ring + (4 + q.next_used % q.size * 8) := by
    unfold uadd
    apply Nat.mod_eq_of_lt
    omega
  have ha2 : uadd q.used_ring 2 = q.used_ring + 2 := by
    unfold uadd
    apply Nat.mod_eq_of_lt
    omega
  constructor
  · intro hge
    unfold add_used
    rw [has, if_pos hge]
  · intro hlt hw1 hw2
    unfold add_used
    rw [has, ha1, ha2, if_neg (by omega), if_pos hw1, if_pos hw2]

/-- C2 witness: a concrete add_used on a size-4 queue with cursor 5. -/
theorem C2_witness :
    add_used memW qW 2 7 =
      (.ok (),
       { max_size := 4, next_avail := 0, next_used := 6
         event_idx_enabled := false, signalled_used := none, size := 4
         ready := true, desc_table := 0, avail_ring := 0x1000
         used_ring := 0x2000 },
       [.writeElem 8204 (VirtqUsedElem.new 2 7),
        .storeU16 8194 6 .release]) ∧
    add_used memW qW 4 7 = (.error .InvalidDescriptorIndex, qW, []) := by
  constructor
  · exact (C2_add_used memW qW 2 7 (by decide) (by decide) (by decide)).2
      (by decide) rfl rfl
  · exact (C2_add_used memW qW 4 7 (by decide) (by decide) (by decide)).1
      (by decide)

/-- C4: needs_notification returns true when event-idx is off; under
event-idx it returns true on the first call after enabling, and otherwise
suppresses exactly when, in wrapping u16 arithmetic, the distance
next_used - used_event - 1 is at least next_used - old, replacing
signalled_used with next_used in the process. -/
theorem C4_needs_notification (mem : GuestMem) (q : Queue) :
    (q.event_idx_enabled = false →
      needs_notification mem q = (.ok true, q, [.fence .seqCst])) ∧
    (q.event_idx_enabled = true → q.signalled_used = none →
      needs_notification mem q =
        (.ok true, { q with signalled_used := some q.next_used },
         [.fence .seqCst])) ∧
    (∀ old ue tr, q.event_idx_enabled = true → q.signalled_used = some old →
      used_event mem q .relaxed = (.ok ue, tr) →
      needs_notification mem q =
        (.ok (!decide (wsub q.next_used old ≤ wsub (wsub q.next_used ue) 1)),
         { q with signalled_used := some q.next_used },
         .fence .seqCst :: tr)) := by
  refine ⟨?_, ?_, ?_⟩
  · intro he
    simp [needs_notification, he]
  · intro he hs
    simp [needs_notification, he, hs]
  · intro old ue tr he hs hu
    unfold needs_notification
    rw [hs, hu]
    simp only [he, if_true]
    by_cases hc : wsub q.next_used old ≤ wsub (wsub q.next_used ue) 1 <;>
      simp [hc]

/-- C4 witness: concrete runs of the three branches. -/
theorem C4_witness :
    needs_notification memW qC4 =
      (.ok false, { qC4 with signalled_used := some 5 },
       [.fence .seqCst, .loadU16 4108 .relaxed]) ∧
    needs_notification memW qC4b =
      (.ok true, { qC4b with signalled_used := some 5 }, [.fence .seqCst]) ∧
    needs_notification memW qW = (.ok true, qW, [.fence .seqCst]) := by
  refine ⟨?_, ?_, ?_⟩
  · have h := (C4_needs_notification memW qC4).2.2 3 0
      [.loadU16 4108 .relaxed] rfl rfl rfl
    simpa using h
  · exact (C4_needs_notification memW qC4b).2.1 rfl rfl
  · exact (C4_needs_notification memW qW).1 rfl

/-- C8: the available-ring iterator stops at the snapshot, otherwise reads
the head index from avail_ring + 4 + (next_avail mod size) * 2, and on
success advances next_avail with u16 wrapping and returns a fresh
DescriptorChain with that head; a failed read yields end of stream. -/
theorem C8_avail_iter_next (mem : GuestMem) (it : AvailIter)
    (hq : 0 < it.queue_size)
    (hb : it.avail_ring + (4 + it.queue_size * 2) < U64) :
    (it.next_avail = it.last_index → availIterNext mem it = (none, [])) ∧
    (it.next_avail ≠ it.last_index →
      (mem.read16 (it.avail_ring + (4 + it.next_avail % it.queue_size * 2))
          = none →
        availIterNext mem it =
          (none, [.readU16 (it.avail_ring +
            (4 + it.next_avail % it.queue_size * 2))])) ∧
      (∀ hd, mem.read16 (it.avail_ring +
            (4 + it.next_avail % it.queue_size * 2)) = some hd →
        availIterNext mem it =
          (some ({ desc_table := it.desc_table
                   queue_size := it.queue_size
                   head_index := hd
                   next_index := hd
                   ttl := it.queue_size
                   is_indirect := false },
                 { it with next_avail := (it.next_avail + 1) % U16 }),
           [.readU16 (it.avail_ring +
             (4 + it.next_avail % it.queue_size * 2))]))) := by
  have hm : it.next_avail % it.queue_size < it.queue_size := Nat.mod_lt _ hq
  have hmul : (it.next_avail % it.queue_size + 1) * 2 ≤ it.queue_size * 2 :=
    Nat.mul_le_mul_right 2 hm
  have ha : uadd it.avail_ring (4 + it.next_avail % it.queue_size * 2) =
      it.avail_ring + (4 + it.next_avail % it.queue_size * 2) := by
    unfold uadd
    apply Nat.mod_eq_of_lt
    omega
  constructor
  · intro he
    unfold availIterNext
    rw [if_pos he]
  · intro hne
    constructor
    · intro hr
      unfold availIterNext
      rw [if_neg hne, ha, hr]
    · intro hd hr
      unfold availIterNext
      rw [if_neg hne, ha, hr]
      rfl

/-- C8 witness: one concrete consuming step and one end-of-stream step. -/
theorem C8_witness :
    availIterNext memW itC8 =
      (some (⟨0, 4, 0, 0, 4, false⟩, { itC8 with next_avail := 1 }),
       [.readU16 4100]) ∧
    availIterNext memW { itC8 with next_avail := 2 } = (none, []) := by
  constructor
  · exact ((C8_avail_iter_next memW itC8 (by decide) (by decide)).2
      (by decide)).2 0 rfl
  · exact (C8_avail_iter_next memW { itC8 with next_avail := 2 }
      (by decide) (by decide)).1 rfl

/-- Classification of set_avail_event failures. -/
theorem set_avail_event_err (mem : GuestMem) (q : Queue) (val : Nat)
    (o : MemOrder) (e : Error)
    (h : (set_avail_event mem q val o).1 = .error e) : e = .GuestMemory := by
  unfold set_avail_event at h
  split at h
  · simp at h
  · simp at h
    exact h.symm

/-- Classification of set_used_flags failures. -/
theorem set_used_flags_err (mem : GuestMem) (q : Queue) (val : Nat)
    (o : MemOrder) (e : Error)
    (h : (set_used_flags mem q val o).1 = .error e) : e = .GuestMemory := by
  unfold set_used_flags at h
  split at h
  · simp at h
  · simp at h
    exact h.symm

/-- Classification of set_notification failures. -/
theorem set_notification_err (mem : GuestMem) (q : Queue) (b : Bool)
    (e : Error) (h : (set_notification mem q b).1 = .error e) :
    e = .GuestMemory := by
  unfold set_notification at h
  split at h
  · split at h
    · exact set_avail_event_err mem q q.next_avail .relaxed e h
    · exact set_used_flags_err mem q 0 .relaxed e h
  · split at h
    · exact set_used_flags_err mem q VIRTQ_USED_F_NO_NOTIFY .relaxed e h
    · simp at h

/-- Classification of avail_idx failures. -/
theorem avail_idx_err (mem : GuestMem) (q : Queue) (o : MemOrder) (e : Error)
    (h : (avail_idx mem q o).1 = .error e) : e = .GuestMemory := by
  unfold avail_idx at h
  rcases hx : mem.read16 (uadd q.used_ring 2) with _ | v
  · rw [hx] at h
    simp at h
    exact h.symm
  · rw [hx] at h
    simp at h

/-- Classification of used_event failures. -/
theorem used_event_err (mem : GuestMem) (q : Queue) (o : MemOrder) (e : Error)
    (h : (used_event mem q o).1 = .error e) : e = .GuestMemory := by
  unfold used_event at h
  rcases hx : mem.read16
      (uadd q.avail_ring ((4 + q.actual_size * 2 % U16) % U16)) with _ | v
  · rw [hx] at h
    simp at h
    exact h.symm
  · rw [hx] at h
    simp at h

/-- C9: no public fallible operation ever returns InvalidChain, and a
chain link pointing past the ring size only truncates iteration without
surfacing an error. -/
theorem C9_no_invalid_chain (mem : GuestMem) (q : Queue) (head len : Nat)
    (order : MemOrder) (s : DescriptorChain) :
    (add_used mem q head len).1 ≠ .error .InvalidChain ∧
    (avail_idx mem q order).1 ≠ .error .InvalidChain ∧
    (Queue.iter mem q).1 ≠ .error .InvalidChain ∧
    (enable_notification mem q).1 ≠ .error .InvalidChain ∧
    (disable_notification mem q).1 ≠ .error .InvalidChain ∧
    (needs_notification mem q).1 ≠ .error .InvalidChain ∧
    (s.queue_size ≤ s.next_index → chainNext mem s = none) := by
  refine ⟨?_, ?_, ?_, ?_, ?_, ?_, ?_⟩
  · unfold add_used
    split
    · simp
    · split
      · split <;> simp
      · simp
  · intro h
    exact absurd (avail_idx_err mem q order .InvalidChain h) (by decide)
  · unfold Queue.iter
    split
    · simp
    · rename_i e tr heq
      intro hcontra
      simp only at hcontra
      have he : e = .GuestMemory := avail_idx_err mem q .acquire e (by rw [heq])
      rw [he] at hcontra
      simp at hcontra
  · unfold enable_notification
    split
    · rename_i e tr heq
      have he : e = .GuestMemory :=
        set_notification_err mem q true e (by rw [heq])
      subst he
      simp
    · rename_i u tr heq
      split
      · simp
      · rename_i e tr2 heq2
        have he : e = .GuestMemory :=
          avail_idx_err mem q .relaxed e (by rw [heq2])
        subst he
        simp
  · intro h
    unfold disable_notification at h
    exact absurd (set_notification_err mem q false .InvalidChain h) (by decide)
  · unfold needs_notification
    split
    · split
      · rename_i old heq
        split
        · rename_i ue tr heq2
          split <;> simp
        · rename_i e tr heq2
          have he : e = .GuestMemory :=
            used_event_err mem q .relaxed e (by rw [heq2])
          subst he
          simp
      · simp
    · simp
  · intro hge
    exact chainNext_of_stop (by unfold chainStep; rw [if_pos (Or.inr hge)])

/-- C9 witness: concrete runs. -/
theorem C9_witness :
    (add_used memW qW 0 0).1 ≠ Except.error Error.InvalidChain ∧
    chainNext memW cC9 = none := by
  refine ⟨(C9_no_invalid_chain memW qW 0 0 .relaxed cC9).1,
    (C9_no_invalid_chain memW qW 0 0 .relaxed cC9).2.2.2.2.2.2 (by decide)⟩

/-- C6 counterexample: on a guest address space holding exactly the
addresses below 38, a ready size-1 queue whose three rings tile 0..37
satisfies every condition of the claim (all spans lie inside the space),
yet is_valid returns false, because the code tests the one-past-the-end
address 38 itself for membership. -/
theorem C6_counterexample :
    is_valid_claim memC6 qC6 ∧ is_valid memC6 qC6 = false := by
  constructor
  · exact ⟨rfl, ⟨0, rfl⟩, by decide, by decide, by decide, by decide,
      by decide, by decide, by decide, by decide⟩
  · decide

/-- C6 (amended): is_valid returns true iff the queue is ready, the size
is a power of two at most max_size, for each ring the one-past-the-end
address base + byte-length is computed without u64 overflow and is itself
inside the guest address space, and the three base alignments hold. -/
theorem C6_is_valid_iff (mem : GuestMem) (q : Queue) :
    is_valid mem q = true ↔ is_valid_amended mem q := by
  unfold is_valid is_valid_amended
  rw [ite_false_true, ite_false_true, ite_false_true, ite_false_true,
      ite_false_true, ite_false_true, ite_false_true, ite_false_true]
  constructor
  · rintro ⟨hready, hsz, hdesc, havail, hused, hd16, ha2, hu4, -⟩
    push_neg at hsz
    obtain ⟨h2a, h2b, h2c⟩ := hsz
    have hpos : 0 < q.size := by omega
    have hact : q.actual_size = q.size := min_eq_left h2a
    rw [hact, checked_elim_iff] at hdesc havail hused
    obtain ⟨k, hk⟩ := (land_pred_eq_zero_iff q.size hpos).mp h2c
    rw [and_mask_fifteen] at hd16
    rw [and_mask_one] at ha2
    rw [and_mask_three] at hu4
    exact ⟨not_not.mp hready, ⟨k, hk⟩, h2a, hdesc.1, hdesc.2, havail.1,
      havail.2, hused.1, hused.2, by omega, by omega, by omega⟩
  · rintro ⟨hready, ⟨k, hk⟩, hle, hdb, hdr, hab, har, hub, hur, hd16, ha2, hu4⟩
    have hpos : 0 < q.size := by rw [hk]; exact Nat.two_pow_pos k
    have hact : q.actual_size = q.size := min_eq_left hle
    refine ⟨not_not.mpr hready, ?_, ?_, ?_, ?_, ?_, ?_, ?_, rfl⟩
    · push_neg
      exact ⟨hle, by omega, (land_pred_eq_zero_iff q.size hpos).mpr ⟨k, hk⟩⟩
    · rw [hact, checked_elim_iff]
      exact ⟨hdb, hdr⟩
    · rw [hact, checked_elim_iff]
      exact ⟨hab, har⟩
    · rw [hact, checked_elim_iff]
      exact ⟨hub, hur⟩
    · rw [and_mask_fifteen]
      omega
    · rw [and_mask_one]
      omega
    · rw [and_mask_three]
      omega

/-- C6 witness for the amended equivalence at a concrete valid queue. -/
theorem C6_witness : is_valid memW qC6w = true := by
  refine (C6_is_valid_iff memW qC6w).mpr
    ⟨rfl, ⟨2, rfl⟩, by decide, by decide, rfl, by decide, rfl, by decide,
     rfl, by decide, by decide, by decide⟩

end VirtioQueue
